import Mathlib

/-!
# AMDGPU context: argument packing, device-property probe, kernel launch

A shallow embedding of `taichi/rhi/amdgpu/amdgpu_context.cpp`.

Conventions of the embedding.

* A C++ `int` is a 32-bit two's-complement value, held in an `Int`.  The
  result of every `int` operation (`+`, `-`, `*`) is its exact value reduced to
  the 32-bit range by `wrap_int`, which is what the compiled code computes
  when an operation overflows.  Statements that hold only without overflow
  carry the hypothesis that the packed size on unbounded integers
  (`get_args_byte_exact`) is at most `INT_MAX`.
* C++ `%` on `int` is the remainder of truncated division, `Int.tmod`.
* Memory reached through a `char *` is a function from byte offsets (relative
  to the pointer) to bytes.
* A `for` loop over a vector is a recursion over the list of its elements;
  the loop body is a function on the loop's local state.
-/

set_option linter.dupNamespace false

namespace taichi.lang.AMDGPUContext

/-! ## C++ primitives -/

/-- The largest value of a 32-bit `int`. -/
def INT_MAX : Int := 2147483647

/-- The smallest value of a 32-bit `int`. -/
def INT_MIN : Int := -2147483648

/-- The 32-bit `int` that an `int` operation with exact value `x` yields: `x`
reduced modulo `2^32` into the range from `INT_MIN` to `INT_MAX`. -/
def wrap_int (x : Int) : Int := (x + 2147483648) % 4294967296 - 2147483648

/-- The C++ `%` operator on `int`: remainder of the division truncated towards zero. -/
def cmod (a b : Int) : Int := Int.tmod a b

/-- Conversion of an `int` to `std::size_t` (64-bit): reduction modulo `2^64`. -/
def to_size_t (n : Int) : Int := n % 18446744073709551616

/-- Memory behind a `char *`: the byte stored at each offset from the pointer. -/
abbrev Mem := Int → UInt8

/-- An argument source (`void *` in `arg_pointers`): the bytes readable from it. -/
abbrev Src := Nat → UInt8

/-- The call `std::memcpy(arg_packed + dst, src, n)`: the `(size_t) n` bytes of
`src` are stored at offsets `dst, dst + 1, ...` of the destination. -/
def memcpy (arg_packed : Mem) (dst : Int) (src : Src) (n : Int) : Mem :=
  fun a => if dst ≤ a ∧ a - dst < to_size_t n then src (a - dst).toNat else arg_packed a

/-! ## `get_args_byte` (lines 109-128) -/

/-- Local variables of `get_args_byte`. -/
structure ArgsByteState where
  byte_cnt : Int
  naive_add : Int

/-- Body of the loop of `get_args_byte` for one element `size` of `arg_sizes`. -/
def get_args_byte_body (st : ArgsByteState) (size : Int) : ArgsByteState :=
  let naive_add := wrap_int (st.naive_add + size)
  let byte_cnt := st.byte_cnt
  if size < 32 then
    if cmod (wrap_int (byte_cnt + size)) 32 > cmod byte_cnt 32 ∨
        cmod (wrap_int (byte_cnt + size)) 32 = 0 then
      { byte_cnt := wrap_int (byte_cnt + size), naive_add := naive_add }
    else
      { byte_cnt := wrap_int (byte_cnt + wrap_int (wrap_int (32 - cmod byte_cnt 32) + size))
        naive_add := naive_add }
  else
    if cmod byte_cnt 32 ≠ 0 then
      { byte_cnt := wrap_int (byte_cnt + wrap_int (wrap_int (32 - cmod byte_cnt 32) + size))
        naive_add := naive_add }
    else
      { byte_cnt := wrap_int (byte_cnt + size), naive_add := naive_add }

/-- The function `AMDGPUContext::get_args_byte`. -/
def get_args_byte (arg_sizes : List Int) : Int :=
  (arg_sizes.foldl get_args_byte_body { byte_cnt := 0, naive_add := 0 }).byte_cnt

/-! ## `pack_args` (lines 130-159) -/

/-- One logged call of `std::memcpy` made by `pack_args`: destination offset
from `arg_packed`, index `ii` of the source pointer, and byte count. -/
structure MemcpyCall where
  dst : Int
  ii : Nat
  n : Int
  deriving DecidableEq, Repr

/-- State of `pack_args`: the local `byte_cnt`, the memory behind `arg_packed`,
and the log of the `memcpy` calls made so far (oldest first). -/
structure PackState where
  byte_cnt : Int
  arg_packed : Mem
  copies : List MemcpyCall

/-- Body of the loop of `pack_args` at index `ii`, with `ptr = arg_pointers[ii]`
and `size = arg_sizes[ii]`. -/
def pack_args_body (st : PackState) (ii : Nat) (ptr : Src) (size : Int) : PackState :=
  let byte_cnt := st.byte_cnt
  if size < 32 then
    if cmod (wrap_int (byte_cnt + size)) 32 > cmod byte_cnt 32 ∨
        cmod (wrap_int (byte_cnt + size)) 32 = 0 then
      { byte_cnt := wrap_int (byte_cnt + size)
        arg_packed := memcpy st.arg_packed byte_cnt ptr size
        copies := st.copies ++ [{ dst := byte_cnt, ii := ii, n := size }] }
    else
      let padding_size := wrap_int (32 - cmod byte_cnt 32)
      let byte_cnt := wrap_int (byte_cnt + padding_size)
      { byte_cnt := wrap_int (byte_cnt + size)
        arg_packed := memcpy st.arg_packed byte_cnt ptr size
        copies := st.copies ++ [{ dst := byte_cnt, ii := ii, n := size }] }
  else
    if cmod byte_cnt 32 ≠ 0 then
      let padding_size := wrap_int (32 - cmod byte_cnt 32)
      let byte_cnt := wrap_int (byte_cnt + padding_size)
      { byte_cnt := wrap_int (byte_cnt + size)
        arg_packed := memcpy st.arg_packed byte_cnt ptr size
        copies := st.copies ++ [{ dst := byte_cnt, ii := ii, n := size }] }
    else
      { byte_cnt := wrap_int (byte_cnt + size)
        arg_packed := memcpy st.arg_packed byte_cnt ptr size
        copies := st.copies ++ [{ dst := byte_cnt, ii := ii, n := size }] }

/-- The loop `for (ii = 0; ii < arg_pointers.size(); ii++)` of `pack_args`,
started at index `ii` with the remaining pointers and sizes.  Reading
`arg_sizes[ii]` past the end of `arg_sizes` has no defined result (`none`). -/
def pack_args_loop : List Src → List Int → Nat → PackState → Option PackState
  | [], _, _, st => some st
  | _ :: _, [], _, _ => none
  | ptr :: ptrs, size :: sizes, ii, st =>
      pack_args_loop ptrs sizes (ii + 1) (pack_args_body st ii ptr size)

/-- The function `AMDGPUContext::pack_args`; the result carries the final
`byte_cnt`, the memory behind `arg_packed` and the log of copies. -/
def pack_args (arg_pointers : List Src) (arg_sizes : List Int) (arg_packed : Mem) :
    Option PackState :=
  pack_args_loop arg_pointers arg_sizes 0
    { byte_cnt := 0, arg_packed := arg_packed, copies := [] }

/-! ## `launch` (lines 161-198) -/

/-- An externally visible call made by `launch`, in the order of the source. -/
inductive Call where
  /-- The cast profiler's `trace(task_handle, name, func, grid_dim, block_dim, 0)`. -/
  | profiler_trace (kernel_name : String) (func grid_dim block_dim : Nat)
  /-- The allocation `std::malloc(pack_size)`. -/
  | malloc (pack_size : Int)
  /-- The driver's `launch_kernel(func, grid_dim, 1, 1, block_dim, 1, 1,
  dynamic_shared_mem_bytes, nullptr, nullptr, config)`, where `config` refers
  to the packed buffer and to `pack_size`. -/
  | launch_kernel (func grid_dim block_dim dynamic_shared_mem_bytes : Nat)
      (packed_arg : Mem) (pack_size : Int)
  /-- The release `std::free(packed_arg)`. -/
  | free
  /-- The profiler's `stop(task_handle)`. -/
  | profiler_stop
  /-- The driver's `stream_synchronize(nullptr)`. -/
  | stream_synchronize

/-- Whether a call is the driver's launch primitive. -/
def Call.is_launch_kernel : Call → Bool
  | .launch_kernel _ _ _ _ _ _ => true
  | _ => false

/-- The members of the context that `launch` reads: whether `profiler_` is
non-null, and `debug_`. -/
structure Context where
  profiler_ : Bool
  debug_ : Bool

/-- The function `AMDGPUContext::launch`, as the sequence of calls it makes.
`try_demangle_name` is the external `offline_cache::try_demangle_name` (the
recovered primal name when it reports success); `heap` is the content of the
block returned by `std::malloc`; `func` stands for the kernel handle;
`grid_dim`, `block_dim` and `dynamic_shared_mem_bytes` are unsigned.  The
allocation is taken to succeed and the profiler cast to yield a profiler, as
the source takes them.  The result is `none` when `pack_args` reads `arg_sizes`
out of range. -/
def launch (ctx : Context) (try_demangle_name : String → Option String) (heap : Mem)
    (func : Nat) (task_name : String) (arg_pointers : List Src) (arg_sizes : List Int)
    (grid_dim block_dim dynamic_shared_mem_bytes : Nat) : Option (List Call) := do
  let mut calls : List Call := []
  if ctx.profiler_ then
    let valid := try_demangle_name task_name
    calls := calls ++ [Call.profiler_trace (valid.getD task_name) func grid_dim block_dim]
  let pack_size := get_args_byte arg_sizes
  calls := calls ++ [Call.malloc pack_size]
  let packed ← pack_args arg_pointers arg_sizes heap
  if grid_dim > 0 then
    calls := calls ++ [Call.launch_kernel func grid_dim block_dim dynamic_shared_mem_bytes
      packed.arg_packed pack_size]
  calls := calls ++ [Call.free]
  if ctx.profiler_ then
    calls := calls ++ [Call.profiler_stop]
  if ctx.debug_ then
    calls := calls ++ [Call.stream_synchronize]
  return calls

/-! ## The constructor's device-property probe (lines 35-84) -/

/-- A `std::string` (and a C string without its terminator): its bytes. -/
abbrev CString := List UInt8

/-- The bytes of a string literal of the source. -/
def lit (s : String) : CString := s.toList.map (fun c => UInt8.ofNat c.toNat)

/-- The constant `std::string::npos`, the largest `size_t`. -/
def npos : Nat := 18446744073709551615

/-- The call `s.substr(pos, count)` for `pos ≤ s.size()` (the source only uses
`pos = 0`): the characters from `pos`, at most `count` of them. -/
def substr (s : CString) (pos count : Nat) : CString := (s.drop pos).take count

/-- The call `s.find(c)` for a one-character string `c`: the index of the first
occurrence of the character, `npos` when there is none. -/
def find (s : CString) (c : UInt8) : Nat :=
  if s.indexOf c < s.length then s.indexOf c else npos

/-- Field offsets into `hipDeviceProp_t`, counted in `int`s, declared in the
driver's header (not part of this file): the ROCm 5 layout and the ROCm 6
layout (suffix `_6`). -/
structure HipOffsets where
  HIP_DEVICE_MAJOR : Nat
  HIP_DEVICE_MINOR : Nat
  HIP_DEVICE_GCN_ARCH_NAME : Nat
  HIP_DEVICE_MAJOR_6 : Nat
  HIP_DEVICE_MINOR_6 : Nat
  HIP_DEVICE_GCN_ARCH_NAME_6 : Nat

/-- The read `*((int *)hip_device_prop + idx)`: the four bytes at byte offset
`4 * idx`, little-endian, as a signed 32-bit value. -/
def read_int (hip_device_prop : List UInt8) (idx : Nat) : Int :=
  let b := fun (k : Nat) => ((hip_device_prop.getD (4 * idx + k) 0).toNat : Int)
  let u := b 0 + b 1 * 256 + b 2 * 65536 + b 3 * 16777216
  if u < 2147483648 then u else u - 4294967296

/-- The read `std::string((char *)((int *)hip_device_prop + idx))`: the bytes
from byte offset `4 * idx` up to the first zero byte. -/
def read_string (hip_device_prop : List UInt8) (idx : Nat) : CString :=
  (hip_device_prop.drop (4 * idx)).takeWhile (fun c => c != 0)

/-- The members the probe stores on the context. -/
structure Probed where
  compute_capability_ : Int
  mcpu_ : CString
  deriving DecidableEq, Repr

/-- The validity test of the source, negated there:
`mcpu_.empty() || mcpu_.substr(0, 3) != "gfx"`. -/
def invalid_mcpu (mcpu_ : CString) : Bool :=
  mcpu_.isEmpty || substr mcpu_ 0 3 != lit "gfx"

/-- The constructor `AMDGPUContext::AMDGPUContext` from line 35 on, given the
field offsets, the buffer filled by `device_get_prop` and the value written by
`runtime_get_version`.  `TI_ERROR` raises, which is the result `error` (with
the message of the source, the formatted version number left out). -/
def AMDGPUContext (o : HipOffsets) (hip_device_prop : List UInt8) (runtime_version : Int) :
    Except String Probed := do
  let mut compute_capability_ := wrap_int (read_int hip_device_prop o.HIP_DEVICE_MAJOR * 100)
  compute_capability_ :=
    wrap_int (compute_capability_ + wrap_int (read_int hip_device_prop o.HIP_DEVICE_MINOR * 10))
  let mut mcpu_ := read_string hip_device_prop o.HIP_DEVICE_GCN_ARCH_NAME
  if invalid_mcpu mcpu_ then
    if runtime_version < 60000000 then
      throw "hipGetDevicePropertiesR0000 returned an invalid mcpu_ but HIP version is not ROCm 6"
    compute_capability_ := wrap_int (read_int hip_device_prop o.HIP_DEVICE_MAJOR_6 * 100)
    compute_capability_ :=
      wrap_int
        (compute_capability_ + wrap_int (read_int hip_device_prop o.HIP_DEVICE_MINOR_6 * 10))
    mcpu_ := read_string hip_device_prop o.HIP_DEVICE_GCN_ARCH_NAME_6
  mcpu_ := substr mcpu_ 0 (find mcpu_ (UInt8.ofNat ':'.toNat))
  return { compute_capability_ := compute_capability_, mcpu_ := mcpu_ }

/-! ## Sample inputs of the probe -/

/-- Sample field offsets, in `int`s: the ROCm 5 fields at 0, 1, 2 and the
ROCm 6 fields at 4, 5, 6. -/
def sample_offsets : HipOffsets :=
  { HIP_DEVICE_MAJOR := 0, HIP_DEVICE_MINOR := 1, HIP_DEVICE_GCN_ARCH_NAME := 2,
    HIP_DEVICE_MAJOR_6 := 4, HIP_DEVICE_MINOR_6 := 5, HIP_DEVICE_GCN_ARCH_NAME_6 := 6 }

/-- A sample buffer in the ROCm 6 layout: read with the ROCm 5 offsets the
name is "xfx90a"; the ROCm 6 fields are 10, 3 and "gfx1030:xnack-". -/
def sample_prop_6 : List UInt8 :=
  [9, 0, 0, 0, 1, 0, 0, 0] ++ lit "xfx90a" ++ [0, 0] ++
    [10, 0, 0, 0, 3, 0, 0, 0] ++ lit "gfx1030:xnack-" ++ [0]

/-- A sample buffer in the ROCm 5 layout: the fields are 9, 0 and
"gfx90a:xnack-". -/
def sample_prop_5 : List UInt8 :=
  [9, 0, 0, 0, 0, 0, 0, 0] ++ lit "gfx90a:xnack-" ++ [0]

/-- A sample buffer in the ROCm 5 layout whose major field is 21475293: the
fields are 21475293, 0 and "gfx9". -/
def sample_prop_wide : List UInt8 :=
  [221, 175, 71, 1, 0, 0, 0, 0] ++ lit "gfx9" ++ [0]

/-! ## The packed size on mathematical integers

Reference quantities, not the code: the layout rule of the two loops carried
out on unbounded integers, without the reduction to 32 bits.  They serve to
say that the packed size of a list of sizes fits in an `int`
(`get_args_byte_exact` is at most `INT_MAX`); the section "Agreement of the
32-bit loops with the loops on mathematical integers" shows that on such lists
the code, in 32-bit `int`, computes exactly these values. -/

/-- The layout rule of the loop body of `get_args_byte` on unbounded integers
(a reference quantity; the code is `get_args_byte_body`). -/
def get_args_byte_body_exact (st : ArgsByteState) (size : Int) : ArgsByteState :=
  let naive_add := st.naive_add + size
  let byte_cnt := st.byte_cnt
  if size < 32 then
    if cmod (byte_cnt + size) 32 > cmod byte_cnt 32 ∨ cmod (byte_cnt + size) 32 = 0 then
      { byte_cnt := byte_cnt + size, naive_add := naive_add }
    else
      { byte_cnt := byte_cnt + (32 - cmod byte_cnt 32 + size), naive_add := naive_add }
  else
    if cmod byte_cnt 32 ≠ 0 then
      { byte_cnt := byte_cnt + (32 - cmod byte_cnt 32 + size), naive_add := naive_add }
    else
      { byte_cnt := byte_cnt + size, naive_add := naive_add }

/-- The packed size of `arg_sizes` on unbounded integers: the sizes plus the
padding the layout rule inserts.  It is the value of `get_args_byte` when no
`int` operation overflows (a reference quantity; the code is `get_args_byte`). -/
def get_args_byte_exact (arg_sizes : List Int) : Int :=
  (arg_sizes.foldl get_args_byte_body_exact { byte_cnt := 0, naive_add := 0 }).byte_cnt

/-- The loop body of `pack_args` with offsets on unbounded integers (a
reference quantity; the code is `pack_args_body`). -/
def pack_args_body_exact (st : PackState) (ii : Nat) (ptr : Src) (size : Int) : PackState :=
  let byte_cnt := st.byte_cnt
  if size < 32 then
    if cmod (byte_cnt + size) 32 > cmod byte_cnt 32 ∨ cmod (byte_cnt + size) 32 = 0 then
      { byte_cnt := byte_cnt + size
        arg_packed := memcpy st.arg_packed byte_cnt ptr size
        copies := st.copies ++ [{ dst := byte_cnt, ii := ii, n := size }] }
    else
      let padding_size := 32 - cmod byte_cnt 32
      let byte_cnt := byte_cnt + padding_size
      { byte_cnt := byte_cnt + size
        arg_packed := memcpy st.arg_packed byte_cnt ptr size
        copies := st.copies ++ [{ dst := byte_cnt, ii := ii, n := size }] }
  else
    if cmod byte_cnt 32 ≠ 0 then
      let padding_size := 32 - cmod byte_cnt 32
      let byte_cnt := byte_cnt + padding_size
      { byte_cnt := byte_cnt + size
        arg_packed := memcpy st.arg_packed byte_cnt ptr size
        copies := st.copies ++ [{ dst := byte_cnt, ii := ii, n := size }] }
    else
      { byte_cnt := byte_cnt + size
        arg_packed := memcpy st.arg_packed byte_cnt ptr size
        copies := st.copies ++ [{ dst := byte_cnt, ii := ii, n := size }] }

/-- The loop of `pack_args` with offsets on unbounded integers (a reference
quantity; the code is `pack_args_loop`). -/
def pack_args_loop_exact : List Src → List Int → Nat → PackState → Option PackState
  | [], _, _, st => some st
  | _ :: _, [], _, _ => none
  | ptr :: ptrs, size :: sizes, ii, st =>
      pack_args_loop_exact ptrs sizes (ii + 1) (pack_args_body_exact st ii ptr size)

/-- The effect of `pack_args` with offsets on unbounded integers (a reference
quantity; the code is `pack_args`). -/
def pack_args_exact (arg_pointers : List Src) (arg_sizes : List Int) (arg_packed : Mem) :
    Option PackState :=
  pack_args_loop_exact arg_pointers arg_sizes 0
    { byte_cnt := 0, arg_packed := arg_packed, copies := [] }

/-! ## Auxiliary definitions for the offset walk -/

/-- The value of `byte_cnt` when the loop of `get_args_byte_exact` is run over
`arg_sizes` from the running offset `byte_cnt`. -/
def walk_from (byte_cnt : Int) (arg_sizes : List Int) : Int :=
  (arg_sizes.foldl get_args_byte_body_exact { byte_cnt := byte_cnt, naive_add := 0 }).byte_cnt

/-- The offset at which the loop body places an argument of size `size` when
the running offset is `byte_cnt`: the new running offset less the size. -/
def placed (byte_cnt size : Int) : Int :=
  (get_args_byte_body_exact { byte_cnt := byte_cnt, naive_add := 0 } size).byte_cnt - size

/-- The `memcpy` calls of the loop of `pack_args_exact` over the sizes `arg_sizes`,
started at running offset `byte_cnt` and index `ii`. -/
def layout : Int → Nat → List Int → List MemcpyCall
  | _, _, [] => []
  | byte_cnt, ii, size :: sizes =>
      { dst := placed byte_cnt size, ii := ii, n := size } ::
        layout (placed byte_cnt size + size) (ii + 1) sizes

/-! ## The offset walk on mathematical integers: basic facts -/

theorem exact_body_byte_cnt (b n s : Int) :
    (get_args_byte_body_exact { byte_cnt := b, naive_add := n } s).byte_cnt = placed b s + s := by
  unfold placed get_args_byte_body_exact
  simp only []
  split_ifs <;> simp

theorem exact_body_eta (b n s : Int) :
    get_args_byte_body_exact { byte_cnt := b, naive_add := n } s
      = { byte_cnt := placed b s + s,
          naive_add := (get_args_byte_body_exact { byte_cnt := b, naive_add := n } s).naive_add } := by
  rw [← exact_body_byte_cnt b n s]

theorem exact_foldl_byte_cnt (l : List Int) (b n : Int) :
    (l.foldl get_args_byte_body_exact { byte_cnt := b, naive_add := n }).byte_cnt = walk_from b l := by
  induction l generalizing b n with
  | nil => rfl
  | cons s l ih =>
    unfold walk_from
    simp only [List.foldl_cons]
    rw [exact_body_eta b n s, exact_body_eta b 0 s, ih, ih]

theorem walk_from_nil (b : Int) : walk_from b [] = b := rfl

theorem walk_from_cons (b s : Int) (l : List Int) :
    walk_from b (s :: l) = walk_from (placed b s + s) l := by
  unfold walk_from
  simp only [List.foldl_cons]
  rw [exact_body_eta b 0 s]
  exact exact_foldl_byte_cnt l _ _

theorem walk_from_append (b : Int) (l1 l2 : List Int) :
    walk_from b (l1 ++ l2) = walk_from (walk_from b l1) l2 := by
  induction l1 generalizing b with
  | nil => rfl
  | cons s l ih => simp only [List.cons_append, walk_from_cons, ih]

theorem get_args_byte_exact_eq_walk (l : List Int) : get_args_byte_exact l = walk_from 0 l := rfl

theorem pack_args_body_exact_eq (st : PackState) (ii : Nat) (ptr : Src) (size : Int) :
    pack_args_body_exact st ii ptr size =
      { byte_cnt := placed st.byte_cnt size + size
        arg_packed := memcpy st.arg_packed (placed st.byte_cnt size) ptr size
        copies := st.copies ++ [{ dst := placed st.byte_cnt size, ii := ii, n := size }] } := by
  unfold pack_args_body_exact placed get_args_byte_body_exact
  simp only []
  have e : st.byte_cnt + (32 - cmod st.byte_cnt 32 + size) - size
      = st.byte_cnt + (32 - cmod st.byte_cnt 32) := by omega
  split_ifs <;> simp <;> refine ⟨?_, ?_, ?_⟩ <;> first | rfl | omega | rw [e]

/-- On non-negative operands the C++ remainder is the Euclidean one. -/
theorem cmod_of_nonneg (a : Int) (h : 0 ≤ a) : cmod a 32 = a % 32 :=
  Int.tmod_eq_emod h (by decide)

/-- The placement rule on a non-negative running offset, in closed form. -/
theorem placed_of_nonneg (b s : Int) (hb : 0 ≤ b) (hs : 0 ≤ s) :
    placed b s =
      if s < 32 then (if (b + s) % 32 > b % 32 ∨ (b + s) % 32 = 0 then b else b + (32 - b % 32))
      else (if b % 32 ≠ 0 then b + (32 - b % 32) else b) := by
  unfold placed get_args_byte_body_exact
  simp only [cmod_of_nonneg b hb, cmod_of_nonneg (b + s) (by omega)]
  split_ifs <;> simp <;> omega

theorem placed_ge (b s : Int) (hb : 0 ≤ b) (hs : 0 ≤ s) : b ≤ placed b s := by
  rw [placed_of_nonneg b s hb hs]
  split_ifs <;> omega

theorem placed_lt (b s : Int) (hb : 0 ≤ b) (hs : 0 ≤ s) : placed b s < b + 32 := by
  rw [placed_of_nonneg b s hb hs]
  split_ifs <;> omega

theorem placed_aligned (b s : Int) (hb : 0 ≤ b) (hs : 32 ≤ s) :
    placed b s % 32 = 0 ∧ (b % 32 = 0 → placed b s = b) := by
  rw [placed_of_nonneg b s hb (by omega)]
  split_ifs <;> omega

theorem placed_zero (b : Int) (hb : 0 ≤ b) :
    placed b 0 = if b % 32 = 0 then b else b + (32 - b % 32) := by
  rw [placed_of_nonneg b 0 hb (le_refl 0)]
  split_ifs <;> omega

theorem walk_from_ge (l : List Int) (b : Int) (hb : 0 ≤ b) (hl : ∀ s ∈ l, 0 ≤ s) :
    b ≤ walk_from b l := by
  induction l generalizing b with
  | nil => exact le_refl b
  | cons s l ih =>
    rw [walk_from_cons]
    have hs : 0 ≤ s := hl s (List.mem_cons_self s l)
    have h1 := placed_ge b s hb hs
    have h2 := ih (placed b s + s) (by omega) (fun x hx => hl x (List.mem_cons_of_mem s hx))
    omega

/-! ## The loop of `pack_args` on mathematical integers -/

theorem pack_args_loop_exact_some (ps : List Src) (ss : List Int) (ii : Nat) (st : PackState)
    (h : ps.length ≤ ss.length) : ∃ st', pack_args_loop_exact ps ss ii st = some st' := by
  induction ps generalizing ss ii st with
  | nil => exact ⟨st, rfl⟩
  | cons p ps ih =>
    cases ss with
    | nil => simp at h
    | cons s ss =>
      simp only [pack_args_loop_exact]
      exact ih ss (ii + 1) _ (by simpa using h)

theorem pack_args_loop_exact_spec (ps : List Src) (ss : List Int) (ii : Nat) (st : PackState)
    (h : ps.length = ss.length) :
    ∃ st', pack_args_loop_exact ps ss ii st = some st' ∧
      st'.byte_cnt = walk_from st.byte_cnt ss ∧
      st'.copies = st.copies ++ layout st.byte_cnt ii ss := by
  induction ps generalizing ss ii st with
  | nil =>
    cases ss with
    | nil => exact ⟨st, rfl, rfl, by simp [layout]⟩
    | cons s ss => simp at h
  | cons p ps ih =>
    cases ss with
    | nil => simp at h
    | cons s ss =>
      obtain ⟨st', h1, h2, h3⟩ := ih ss (ii + 1) (pack_args_body_exact st ii p s) (by simpa using h)
      refine ⟨st', by simpa only [pack_args_loop_exact] using h1, ?_, ?_⟩
      · rw [h2, walk_from_cons, pack_args_body_exact_eq]
      · rw [h3, pack_args_body_exact_eq]
        simp [layout]

theorem layout_length (ss : List Int) (b : Int) (ii : Nat) :
    (layout b ii ss).length = ss.length := by
  induction ss generalizing b ii with
  | nil => rfl
  | cons s ss ih => simp [layout, ih]

theorem layout_get (ss : List Int) (b : Int) (ii i : Nat) (s : Int) (h : ss[i]? = some s) :
    (layout b ii ss)[i]? =
      some { dst := walk_from b (ss.take (i + 1)) - s, ii := ii + i, n := s } := by
  induction ss generalizing b ii i with
  | nil => simp at h
  | cons s0 ss ih =>
    cases i with
    | zero =>
      simp only [List.getElem?_cons_zero, Option.some.injEq] at h
      subst h
      simp [layout, walk_from_cons, walk_from_nil]
    | succ i =>
      simp only [List.getElem?_cons_succ] at h
      have := ih (placed b s0 + s0) (ii + 1) i h
      simp only [layout, List.getElem?_cons_succ, this, List.take_succ_cons, walk_from_cons]
      congr 2
      omega

theorem take_succ_of_get (ss : List Int) (i : Nat) (s : Int) (h : ss[i]? = some s) :
    ss.take (i + 1) = ss.take i ++ [s] := by
  rw [List.take_succ, h]
  rfl

theorem walk_from_take_succ (ss : List Int) (b : Int) (i : Nat) (s : Int)
    (h : ss[i]? = some s) :
    walk_from b (ss.take (i + 1)) = placed (walk_from b (ss.take i)) s + s := by
  rw [take_succ_of_get ss i s h, walk_from_append, walk_from_cons, walk_from_nil]

theorem memcpy_below (m : Mem) (d : Int) (p : Src) (n a : Int) (h : a < d) :
    memcpy m d p n a = m a := by
  unfold memcpy
  rw [if_neg]
  omega

theorem memcpy_at (m : Mem) (d : Int) (p : Src) (n : Int) (k : Nat)
    (h0 : 0 ≤ n) (h1 : n ≤ INT_MAX) (hk : (k : Int) < n) :
    memcpy m d p n (d + k) = p k := by
  unfold memcpy to_size_t
  unfold INT_MAX at h1
  rw [if_pos]
  · congr 1
    omega
  · omega

theorem pack_args_loop_exact_frame (ps : List Src) (ss : List Int) (ii : Nat) (st st' : PackState)
    (h : pack_args_loop_exact ps ss ii st = some st') (hb : 0 ≤ st.byte_cnt)
    (hs : ∀ s ∈ ss, 0 ≤ s) (a : Int) (ha : a < st.byte_cnt) :
    st'.arg_packed a = st.arg_packed a := by
  induction ps generalizing ss ii st with
  | nil =>
    simp only [pack_args_loop_exact, Option.some.injEq] at h
    rw [← h]
  | cons p ps ih =>
    cases ss with
    | nil => simp [pack_args_loop_exact] at h
    | cons s ss =>
      simp only [pack_args_loop_exact] at h
      have hs0 : 0 ≤ s := hs s (List.mem_cons_self s ss)
      have hge := placed_ge st.byte_cnt s hb hs0
      rw [pack_args_body_exact_eq] at h
      have := ih ss (ii + 1) _ h (by simp only; omega)
        (fun x hx => hs x (List.mem_cons_of_mem s hx)) (by simp only; omega)
      rw [this]
      exact memcpy_below _ _ _ _ _ (by omega)

theorem pack_args_loop_exact_content (ps : List Src) (ss : List Int) (ii : Nat) (st st' : PackState)
    (h : pack_args_loop_exact ps ss ii st = some st') (hb : 0 ≤ st.byte_cnt)
    (hs : ∀ s ∈ ss, 0 ≤ s ∧ s ≤ INT_MAX) (i : Nat) (p : Src) (s : Int)
    (hp : ps[i]? = some p) (hsi : ss[i]? = some s) (k : Nat) (hk : (k : Int) < s) :
    st'.arg_packed (walk_from st.byte_cnt (ss.take (i + 1)) - s + k) = p k := by
  induction ps generalizing ss ii st i with
  | nil => simp at hp
  | cons p0 ps ih =>
    cases ss with
    | nil => simp at hsi
    | cons s0 ss =>
      simp only [pack_args_loop_exact] at h
      have hs0 := hs s0 (List.mem_cons_self s0 ss)
      have hge := placed_ge st.byte_cnt s0 hb hs0.1
      have hrest : ∀ x ∈ ss, 0 ≤ x ∧ x ≤ INT_MAX :=
        fun x hx => hs x (List.mem_cons_of_mem s0 hx)
      rw [pack_args_body_exact_eq] at h
      cases i with
      | zero =>
        simp only [List.getElem?_cons_zero, Option.some.injEq] at hp hsi
        subst hp hsi
        have hfr := pack_args_loop_exact_frame ps ss (ii + 1) _ st' h (by simp only; omega)
          (fun x hx => (hrest x hx).1) (placed st.byte_cnt s0 + k) (by simp only; omega)
        simp only [List.take_succ_cons, List.take_zero, walk_from_cons, walk_from_nil]
        rw [show placed st.byte_cnt s0 + s0 - s0 + (k : Int) = placed st.byte_cnt s0 + k by omega,
          hfr]
        exact memcpy_at _ _ _ _ _ hs0.1 hs0.2 hk
      | succ i =>
        simp only [List.getElem?_cons_succ] at hp hsi
        have := ih ss (ii + 1) _ h (by simp only; omega) hrest i hp hsi
        simpa only [List.take_succ_cons, walk_from_cons] using this

/-! ## The loops on 32-bit `int` -/

theorem wrap_int_of_range (x : Int) (h0 : INT_MIN ≤ x) (h1 : x ≤ INT_MAX) : wrap_int x = x := by
  unfold wrap_int
  unfold INT_MIN at h0
  unfold INT_MAX at h1
  omega

/-- Padding first and adding the size afterwards gives the same `int` as adding
the padding and the size in one step. -/
theorem wrap_int_pad_add (b r s : Int) :
    wrap_int (wrap_int (b + wrap_int (32 - r)) + s)
      = wrap_int (b + wrap_int (wrap_int (32 - r) + s)) := by
  unfold wrap_int
  omega

theorem pack_args_body_byte_cnt (st : PackState) (ii : Nat) (ptr : Src) (size n : Int) :
    (pack_args_body st ii ptr size).byte_cnt
      = (get_args_byte_body { byte_cnt := st.byte_cnt, naive_add := n } size).byte_cnt := by
  unfold pack_args_body get_args_byte_body
  simp only []
  split_ifs <;> first | rfl | exact wrap_int_pad_add _ _ _

theorem pack_args_loop_some (ps : List Src) (ss : List Int) (ii : Nat) (st : PackState)
    (h : ps.length ≤ ss.length) : ∃ st', pack_args_loop ps ss ii st = some st' := by
  induction ps generalizing ss ii st with
  | nil => exact ⟨st, rfl⟩
  | cons p ps ih =>
    cases ss with
    | nil => simp at h
    | cons s ss =>
      simp only [pack_args_loop]
      exact ih ss (ii + 1) _ (by simpa using h)

theorem pack_args_loop_byte_cnt (ps : List Src) (ss : List Int) (ii : Nat) (st : PackState)
    (n : Int) (h : ps.length = ss.length) :
    ∃ st', pack_args_loop ps ss ii st = some st' ∧
      st'.byte_cnt
        = (ss.foldl get_args_byte_body { byte_cnt := st.byte_cnt, naive_add := n }).byte_cnt := by
  induction ps generalizing ss ii st n with
  | nil =>
    cases ss with
    | nil => exact ⟨st, rfl, rfl⟩
    | cons s ss => simp at h
  | cons p ps ih =>
    cases ss with
    | nil => simp at h
    | cons s ss =>
      obtain ⟨st', h1, h2⟩ := ih ss (ii + 1) (pack_args_body st ii p s)
        (get_args_byte_body { byte_cnt := st.byte_cnt, naive_add := n } s).naive_add
        (by simpa using h)
      refine ⟨st', by simpa only [pack_args_loop] using h1, ?_⟩
      rw [h2, pack_args_body_byte_cnt st ii p s n]
      rfl

/-! ## Agreement of the 32-bit loops with the loops on mathematical integers

For non-negative sizes whose packed size fits in an `int`, no operation of
either loop overflows. -/

theorem get_args_byte_body_eq_exact (b n s : Int) (hb : 0 ≤ b) (hs : 0 ≤ s)
    (hfit : placed b s + s ≤ INT_MAX) :
    (get_args_byte_body { byte_cnt := b, naive_add := n } s).byte_cnt = placed b s + s := by
  have hge := placed_ge b s hb hs
  have hr0 : 0 ≤ cmod b 32 := by rw [cmod_of_nonneg _ hb]; omega
  have hr1 : cmod b 32 < 32 := by rw [cmod_of_nonneg _ hb]; omega
  have hpl := exact_body_byte_cnt b 0 s
  have hmin : INT_MIN ≤ 0 := by decide
  have hmax : (32 : Int) ≤ INT_MAX := by decide
  unfold get_args_byte_body
  unfold get_args_byte_body_exact at hpl
  simp only [] at hpl ⊢
  rw [wrap_int_of_range (b + s) (by omega) (by omega)]
  split_ifs at hpl ⊢
  · exact hpl
  · simp only [] at hpl ⊢
    rw [wrap_int_of_range (32 - cmod b 32) (by omega) (by omega),
      wrap_int_of_range (32 - cmod b 32 + s) (by omega) (by omega),
      wrap_int_of_range _ (by omega) (by omega)]
    exact hpl
  · simp only [] at hpl ⊢
    rw [wrap_int_of_range (32 - cmod b 32) (by omega) (by omega),
      wrap_int_of_range (32 - cmod b 32 + s) (by omega) (by omega),
      wrap_int_of_range _ (by omega) (by omega)]
    exact hpl
  · exact hpl

theorem foldl_eq_walk_from (l : List Int) (b n : Int) (hb : 0 ≤ b) (hs : ∀ s ∈ l, 0 ≤ s)
    (hfit : walk_from b l ≤ INT_MAX) :
    (l.foldl get_args_byte_body { byte_cnt := b, naive_add := n }).byte_cnt = walk_from b l := by
  induction l generalizing b n with
  | nil => rfl
  | cons s l ih =>
    have hs0 : 0 ≤ s := hs s (List.mem_cons_self s l)
    have hrest : ∀ x ∈ l, 0 ≤ x := fun x hx => hs x (List.mem_cons_of_mem s hx)
    have hge := placed_ge b s hb hs0
    rw [walk_from_cons] at hfit ⊢
    have hmono := walk_from_ge l (placed b s + s) (by omega) hrest
    have hbc := get_args_byte_body_eq_exact b n s hb hs0 (by omega)
    have e : get_args_byte_body { byte_cnt := b, naive_add := n } s
        = { byte_cnt := placed b s + s,
            naive_add := (get_args_byte_body { byte_cnt := b, naive_add := n } s).naive_add } := by
      rw [← hbc]
    rw [List.foldl_cons, e]
    exact ih _ _ (by omega) hrest hfit

/-- On non-negative sizes whose packed size fits in an `int`, `get_args_byte`
returns the packed size. -/
theorem get_args_byte_eq_exact (arg_sizes : List Int) (hs : ∀ s ∈ arg_sizes, 0 ≤ s)
    (hfit : get_args_byte_exact arg_sizes ≤ INT_MAX) :
    get_args_byte arg_sizes = get_args_byte_exact arg_sizes :=
  foldl_eq_walk_from arg_sizes 0 0 (le_refl 0) hs hfit

theorem pack_args_body_eq_exact (st : PackState) (ii : Nat) (ptr : Src) (s : Int)
    (hb : 0 ≤ st.byte_cnt) (hs : 0 ≤ s) (hfit : placed st.byte_cnt s + s ≤ INT_MAX) :
    pack_args_body st ii ptr s = pack_args_body_exact st ii ptr s := by
  have hge := placed_ge st.byte_cnt s hb hs
  have hr0 : 0 ≤ cmod st.byte_cnt 32 := by rw [cmod_of_nonneg _ hb]; omega
  have hr1 : cmod st.byte_cnt 32 < 32 := by rw [cmod_of_nonneg _ hb]; omega
  have hpl := exact_body_byte_cnt st.byte_cnt 0 s
  have hmin : INT_MIN ≤ 0 := by decide
  have hmax : (32 : Int) ≤ INT_MAX := by decide
  unfold pack_args_body pack_args_body_exact
  unfold get_args_byte_body_exact at hpl
  simp only [] at hpl ⊢
  rw [wrap_int_of_range (st.byte_cnt + s) (by omega) (by omega)]
  split_ifs at hpl ⊢
  · rfl
  · simp only [] at hpl ⊢
    rw [wrap_int_of_range (32 - cmod st.byte_cnt 32) (by omega) (by omega),
      wrap_int_of_range (st.byte_cnt + (32 - cmod st.byte_cnt 32)) (by omega) (by omega),
      wrap_int_of_range _ (by omega) (by omega)]
  · simp only [] at hpl ⊢
    rw [wrap_int_of_range (32 - cmod st.byte_cnt 32) (by omega) (by omega),
      wrap_int_of_range (st.byte_cnt + (32 - cmod st.byte_cnt 32)) (by omega) (by omega),
      wrap_int_of_range _ (by omega) (by omega)]
  · rfl

theorem pack_args_loop_eq_exact (ps : List Src) (ss : List Int) (ii : Nat) (st : PackState)
    (hb : 0 ≤ st.byte_cnt) (hs : ∀ s ∈ ss, 0 ≤ s)
    (hfit : walk_from st.byte_cnt ss ≤ INT_MAX) :
    pack_args_loop ps ss ii st = pack_args_loop_exact ps ss ii st := by
  induction ps generalizing ss ii st with
  | nil => rfl
  | cons p ps ih =>
    cases ss with
    | nil => rfl
    | cons s ss =>
      have hs0 : 0 ≤ s := hs s (List.mem_cons_self s ss)
      have hrest : ∀ x ∈ ss, 0 ≤ x := fun x hx => hs x (List.mem_cons_of_mem s hx)
      have hge := placed_ge st.byte_cnt s hb hs0
      rw [walk_from_cons] at hfit
      have hmono := walk_from_ge ss (placed st.byte_cnt s + s) (by omega) hrest
      simp only [pack_args_loop, pack_args_loop_exact]
      rw [pack_args_body_eq_exact st ii p s hb hs0 (by omega)]
      apply ih
      · rw [pack_args_body_exact_eq]
        simp only
        omega
      · exact hrest
      · rw [pack_args_body_exact_eq]
        exact hfit

/-- On non-negative sizes whose packed size fits in an `int`, `pack_args` does
what the loop on mathematical integers does. -/
theorem pack_args_eq_exact (arg_pointers : List Src) (arg_sizes : List Int)
    (arg_packed : Mem) (hs : ∀ s ∈ arg_sizes, 0 ≤ s)
    (hfit : get_args_byte_exact arg_sizes ≤ INT_MAX) :
    pack_args arg_pointers arg_sizes arg_packed
      = pack_args_exact arg_pointers arg_sizes arg_packed :=
  pack_args_loop_eq_exact arg_pointers arg_sizes 0 _ (le_refl 0) hs hfit

/-! ## The log of `pack_args` on mathematical integers -/

theorem pack_args_exact_copies (ptrs : List Src) (sizes : List Int) (mem : Mem)
    (hlen : ptrs.length = sizes.length) :
    ∃ st, pack_args_exact ptrs sizes mem = some st ∧
      st.byte_cnt = get_args_byte_exact sizes ∧
      st.copies.length = sizes.length ∧
      ∀ i s, sizes[i]? = some s →
        st.copies[i]? =
            some { dst := placed (get_args_byte_exact (sizes.take i)) s, ii := i, n := s }
          ∧ placed (get_args_byte_exact (sizes.take i)) s + s
              = get_args_byte_exact (sizes.take (i + 1)) := by
  obtain ⟨st, h1, h2, h3⟩ := pack_args_loop_exact_spec ptrs sizes 0
    { byte_cnt := 0, arg_packed := mem, copies := [] } hlen
  refine ⟨st, h1, by rw [h2, get_args_byte_exact_eq_walk], ?_, ?_⟩
  · rw [h3]
    simp [layout_length]
  · intro i s hi
    rw [h3]
    simp only [List.nil_append, get_args_byte_exact_eq_walk]
    rw [layout_get sizes 0 0 i s hi, walk_from_take_succ sizes 0 i s hi]
    simp

/-- The running offset of the walk over non-negative sizes is non-negative
and does not decrease when more arguments follow. -/
theorem get_args_byte_exact_take_le (sizes : List Int) (hs : ∀ s ∈ sizes, 0 ≤ s) (i j : Nat)
    (hij : i ≤ j) :
    0 ≤ get_args_byte_exact (sizes.take i) ∧
      get_args_byte_exact (sizes.take i) ≤ get_args_byte_exact (sizes.take j) := by
  have h0 : 0 ≤ get_args_byte_exact (sizes.take i) :=
    walk_from_ge _ 0 (le_refl 0) (fun x hx => hs x (List.mem_of_mem_take hx))
  refine ⟨h0, ?_⟩
  have e : sizes.take j = sizes.take i ++ (sizes.take j).drop i := by
    conv_lhs => rw [← List.take_append_drop i (sizes.take j)]
    rw [List.take_take, min_eq_left hij]
  rw [e, get_args_byte_exact_eq_walk, get_args_byte_exact_eq_walk, walk_from_append]
  exact walk_from_ge _ _ h0
    (fun x hx => hs x (List.mem_of_mem_take (List.mem_of_mem_drop hx)))

theorem get_args_byte_exact_take_le_total (sizes : List Int) (hs : ∀ s ∈ sizes, 0 ≤ s)
    (i : Nat) : get_args_byte_exact (sizes.take i) ≤ get_args_byte_exact sizes := by
  rcases le_total i sizes.length with h | h
  · have := (get_args_byte_exact_take_le sizes hs i sizes.length h).2
    simpa using this
  · rw [List.take_of_length_le h]

/-- When the packed size of the whole list fits in an `int`, `get_args_byte`
returns the packed size of every prefix. -/
theorem get_args_byte_take_eq_exact (sizes : List Int) (hs : ∀ s ∈ sizes, 0 ≤ s)
    (hfit : get_args_byte_exact sizes ≤ INT_MAX) (i : Nat) :
    get_args_byte (sizes.take i) = get_args_byte_exact (sizes.take i) :=
  get_args_byte_eq_exact _ (fun x hx => hs x (List.mem_of_mem_take hx))
    (le_trans (get_args_byte_exact_take_le_total sizes hs i) hfit)

/-- The loop lemma at the initial state of `pack_args`. -/
theorem pack_args_byte_cnt (ptrs : List Src) (sizes : List Int) (mem : Mem)
    (hlen : ptrs.length = sizes.length) :
    ∃ st, pack_args ptrs sizes mem = some st ∧ st.byte_cnt = get_args_byte sizes :=
  pack_args_loop_byte_cnt ptrs sizes 0 { byte_cnt := 0, arg_packed := mem, copies := [] } 0 hlen

/-! ## Claims about the packing walk -/

/-- C1: for argument sizes and sources of the same length, `pack_args` returns
and the running offset it has reached after its last copy equals
`get_args_byte` of the sizes. -/
theorem pack_args_final_offset_eq_get_args_byte (arg_pointers : List Src)
    (arg_sizes : List Int) (arg_packed : Mem)
    (hlen : arg_pointers.length = arg_sizes.length) :
    ∃ st, pack_args arg_pointers arg_sizes arg_packed = some st ∧
      st.byte_cnt = get_args_byte arg_sizes := by
  obtain ⟨st, h1, h2⟩ := pack_args_loop_byte_cnt arg_pointers arg_sizes 0
    { byte_cnt := 0, arg_packed := arg_packed, copies := [] } 0 hlen
  exact ⟨st, h1, h2⟩

theorem pack_args_final_offset_eq_get_args_byte_witness :
    ([fun _ => 1, fun _ => 2, fun _ => 3] : List Src).length = [4, 40, 8].length ∧
    ∃ st, pack_args [fun _ => 1, fun _ => 2, fun _ => 3] [4, 40, 8] (fun _ => 0) = some st ∧
      st.byte_cnt = get_args_byte [4, 40, 8] :=
  ⟨by decide, pack_args_final_offset_eq_get_args_byte _ _ _ (by decide)⟩

/-- The counterexample to C2 as stated: with the sizes 2147483616, 2147483616,
64, 4 the running offset overflows, the fourth copy goes to offset 0, and the
destination no longer holds the first byte of the first source at the offset
of the first copy. -/
theorem pack_args_overwrites_after_overflow :
    (([fun _ => 1, fun _ => 2, fun _ => 3, fun _ => 4] : List Src).length
        = [2147483616, 2147483616, 64, 4].length ∧
      ∀ s ∈ ([2147483616, 2147483616, 64, 4] : List Int), 0 ≤ s ∧ s ≤ INT_MAX) ∧
    ∃ st : PackState,
      pack_args [fun _ => 1, fun _ => 2, fun _ => 3, fun _ => 4]
        [2147483616, 2147483616, 64, 4] (fun _ => 0) = some st ∧
      st.copies[0]? = some { dst := 0, ii := 0, n := 2147483616 } ∧
      st.copies[3]? = some { dst := 0, ii := 3, n := 4 } ∧
      st.arg_packed (0 + ((0 : Nat) : Int)) = 4 ∧
      st.arg_packed (0 + ((0 : Nat) : Int)) ≠ (fun _ => (1 : UInt8)) 0 :=
  ⟨⟨by decide, by decide⟩, _, rfl, by decide, by decide, by decide, by decide⟩

/-- C2, amended: for non-negative `int` sizes whose packed size fits in an
`int`, with one source per size, `pack_args` returns; its i-th copy has source
i and count `size_i`; afterwards the destination holds byte `k` of source i at
offset `dst_i + k` for every `k < size_i`; and every later copy starts at or
after the end of every earlier one. -/
theorem pack_args_stores_every_argument (ptrs : List Src) (sizes : List Int) (mem : Mem)
    (hlen : ptrs.length = sizes.length) (hs : ∀ s ∈ sizes, 0 ≤ s ∧ s ≤ INT_MAX)
    (hfit : get_args_byte_exact sizes ≤ INT_MAX) :
    ∃ st : PackState, pack_args ptrs sizes mem = some st ∧ st.copies.length = sizes.length ∧
      (∀ (i : Nat) (p : Src) (s : Int), ptrs[i]? = some p → sizes[i]? = some s →
        ∃ c : MemcpyCall, st.copies[i]? = some c ∧ c.ii = i ∧ c.n = s ∧
          c.dst + s = get_args_byte (sizes.take (i + 1)) ∧
          ∀ k : Nat, (k : Int) < s → st.arg_packed (c.dst + k) = p k) ∧
      (∀ (i j : Nat) (ci cj : MemcpyCall), i < j → st.copies[i]? = some ci →
        st.copies[j]? = some cj → ci.dst + ci.n ≤ cj.dst) := by
  have hs0 : ∀ s ∈ sizes, 0 ≤ s := fun s h => (hs s h).1
  rw [pack_args_eq_exact ptrs sizes mem hs0 hfit]
  simp only [get_args_byte_take_eq_exact sizes hs0 hfit]
  obtain ⟨st, h1, _, h3, h4⟩ := pack_args_exact_copies ptrs sizes mem hlen
  refine ⟨st, h1, h3, ?_, ?_⟩
  · intro i p s hp hsi
    obtain ⟨hc, he⟩ := h4 i s hsi
    refine ⟨_, hc, rfl, rfl, he, ?_⟩
    intro k hk
    have := pack_args_loop_exact_content ptrs sizes 0 _ st h1 (le_refl 0) hs i p s hp hsi k hk
    simp only at this
    rw [← get_args_byte_exact_eq_walk, ← he] at this
    simpa using this
  · intro i j ci cj hij hi hj
    have hjl : j < sizes.length := by
      rw [← h3]
      exact (List.getElem?_eq_some_iff.mp hj).1
    have hil : i < sizes.length := by omega
    obtain ⟨hci, hei⟩ := h4 i sizes[i] (List.getElem?_eq_getElem hil)
    obtain ⟨hcj, _⟩ := h4 j sizes[j] (List.getElem?_eq_getElem hjl)
    rw [hci] at hi
    rw [hcj] at hj
    simp only [Option.some.injEq] at hi hj
    subst hi hj
    simp only
    rw [hei]
    have hmono := get_args_byte_exact_take_le sizes hs0 (i + 1) j (by omega)
    have hjn : 0 ≤ get_args_byte_exact (sizes.take j) :=
      (get_args_byte_exact_take_le sizes hs0 j j (le_refl j)).1
    have := placed_ge (get_args_byte_exact (sizes.take j)) sizes[j] hjn
      (hs0 _ (List.getElem_mem hjl))
    omega

theorem pack_args_stores_every_argument_witness :
    (([fun k => UInt8.ofNat k, fun _ => 7] : List Src).length = [4, 40].length ∧
      (∀ s ∈ ([4, 40] : List Int), 0 ≤ s ∧ s ≤ INT_MAX) ∧
      get_args_byte_exact [4, 40] ≤ INT_MAX) ∧
    ∃ st : PackState,
      pack_args [fun k => UInt8.ofNat k, fun _ => 7] [4, 40] (fun _ => 0) = some st ∧
      st.copies.length = [4, 40].length ∧
      (∀ (i : Nat) (p : Src) (s : Int),
        ([fun k => UInt8.ofNat k, fun _ => 7] : List Src)[i]? = some p →
        ([4, 40] : List Int)[i]? = some s →
        ∃ c : MemcpyCall, st.copies[i]? = some c ∧ c.ii = i ∧ c.n = s ∧
          c.dst + s = get_args_byte (([4, 40] : List Int).take (i + 1)) ∧
          ∀ k : Nat, (k : Int) < s → st.arg_packed (c.dst + k) = p k) ∧
      (∀ (i j : Nat) (ci cj : MemcpyCall), i < j → st.copies[i]? = some ci →
        st.copies[j]? = some cj → ci.dst + ci.n ≤ cj.dst) :=
  ⟨⟨by decide, by decide, by decide⟩,
    pack_args_stores_every_argument _ _ _ (by decide) (by decide) (by decide)⟩

/-- The counterexample to C10 as stated: with the sizes 2147483632 and 16 the
running offset overflows, `get_args_byte` returns -2147483648, and the second
copy ends at offset 2147483648, beyond the size `get_args_byte` returns. -/
theorem pack_args_copy_outside_buffer_after_overflow :
    (([fun _ => 1, fun _ => 2] : List Src).length = [2147483632, 16].length ∧
      ∀ s ∈ ([2147483632, 16] : List Int), 0 ≤ s) ∧
    get_args_byte [2147483632, 16] = -2147483648 ∧
    ∃ st : PackState,
      pack_args [fun _ => 1, fun _ => 2] [2147483632, 16] (fun _ => 0) = some st ∧
      st.copies[1]? = some { dst := 2147483632, ii := 1, n := 16 } ∧
      ¬ ((2147483632 : Int) + 16 ≤ get_args_byte [2147483632, 16]) :=
  ⟨⟨by decide, by decide⟩, by decide, _, rfl, by decide, by decide⟩

/-- C10, amended: for non-negative sizes whose packed size fits in an `int`,
with one source per size, every copy of `pack_args` lies inside a buffer of
`get_args_byte sizes` bytes: the i-th copy has count `size_i`, starts at an
offset of at least 0 and ends at an offset of at most `get_args_byte sizes`;
and `get_args_byte sizes` is the size `launch` passes to `std::malloc`. -/
theorem pack_args_copies_within_buffer (ptrs : List Src) (sizes : List Int) (mem : Mem)
    (hlen : ptrs.length = sizes.length) (hs : ∀ s ∈ sizes, 0 ≤ s)
    (hfit : get_args_byte_exact sizes ≤ INT_MAX) :
    (∃ st : PackState, pack_args ptrs sizes mem = some st ∧ st.copies.length = sizes.length ∧
      ∀ (i : Nat) (s : Int), sizes[i]? = some s →
        ∃ c : MemcpyCall, st.copies[i]? = some c ∧ c.ii = i ∧ c.n = s ∧
          0 ≤ c.dst ∧ c.dst + c.n ≤ get_args_byte sizes) ∧
    (∀ (ctx : Context) (try_demangle_name : String → Option String) (func : Nat)
        (task_name : String) (grid_dim block_dim dynamic_shared_mem_bytes : Nat),
      ∃ calls : List Call,
        launch ctx try_demangle_name mem func task_name ptrs sizes
          grid_dim block_dim dynamic_shared_mem_bytes = some calls ∧
        Call.malloc (get_args_byte sizes) ∈ calls) := by
  have hpack := pack_args_eq_exact ptrs sizes mem hs hfit
  have htot := get_args_byte_eq_exact sizes hs hfit
  obtain ⟨st, h1, _, h3, h4⟩ := pack_args_exact_copies ptrs sizes mem hlen
  rw [← hpack] at h1
  refine ⟨⟨st, h1, h3, ?_⟩, ?_⟩
  swap
  · intro ctx tdn func task_name grid_dim block_dim shmem
    unfold launch
    simp only [h1]
    cases hprof : ctx.profiler_ <;> cases hdbg : ctx.debug_ <;>
      by_cases hg : grid_dim > 0 <;> simp [hg]
  intro i s hsi
  obtain ⟨hc, he⟩ := h4 i s hsi
  refine ⟨_, hc, rfl, rfl, ?_, ?_⟩
  · have hin : 0 ≤ get_args_byte_exact (sizes.take i) :=
      (get_args_byte_exact_take_le sizes hs i i (le_refl i)).1
    have := placed_ge (get_args_byte_exact (sizes.take i)) s hin
      (hs s (List.getElem?_mem hsi))
    simp only
    omega
  · simp only
    rw [he, htot]
    exact get_args_byte_exact_take_le_total sizes hs (i + 1)

theorem pack_args_copies_within_buffer_witness :
    (([fun _ => 1, fun _ => 2, fun _ => 3] : List Src).length = [20, 16, 0].length ∧
      (∀ s ∈ ([20, 16, 0] : List Int), 0 ≤ s) ∧
      get_args_byte_exact [20, 16, 0] ≤ INT_MAX) ∧
    ∃ st : PackState, pack_args [fun _ => 1, fun _ => 2, fun _ => 3] [20, 16, 0] (fun _ => 0) = some st ∧
      st.copies.length = [20, 16, 0].length ∧
      ∀ (i : Nat) (s : Int), ([20, 16, 0] : List Int)[i]? = some s →
        ∃ c : MemcpyCall, st.copies[i]? = some c ∧ c.ii = i ∧ c.n = s ∧
          0 ≤ c.dst ∧ c.dst + c.n ≤ get_args_byte [20, 16, 0] :=
  ⟨⟨by decide, by decide, by decide⟩,
    (pack_args_copies_within_buffer _ _ _ (by decide) (by decide) (by decide)).1⟩

/-- The counterexample to C3 as stated: with the sizes 2147483647 and 40 the
running offset before the second argument is 2147483647, not a multiple of 32,
and the padding overflows: the second copy goes to offset -2147483648, which
is not above the running offset. -/
theorem large_argument_not_at_next_multiple_after_overflow :
    (([fun _ => 1, fun _ => 2] : List Src).length = [2147483647, 40].length ∧
      ∀ s ∈ ([2147483647, 40] : List Int), 0 ≤ s) ∧
    get_args_byte (([2147483647, 40] : List Int).take 1) = 2147483647 ∧
    get_args_byte (([2147483647, 40] : List Int).take 1) % 32 ≠ 0 ∧
    ∃ st : PackState,
      pack_args [fun _ => 1, fun _ => 2] [2147483647, 40] (fun _ => 0) = some st ∧
      st.copies[1]? = some { dst := -2147483648, ii := 1, n := 40 } ∧
      ¬ (get_args_byte (([2147483647, 40] : List Int).take 1) < -2147483648) :=
  ⟨⟨by decide, by decide⟩, by decide, by decide, _, rfl, by decide, by decide⟩

/-- C3, amended: for non-negative sizes whose packed size fits in an `int`, the
copy of every argument of size at least 32 goes to an offset that is a multiple
of 32: the running offset before the argument (`get_args_byte` of the sizes
before it) when that is a multiple of 32, otherwise the next multiple of 32
above it.  Sizes `[40]` give one copy at offset 0 and total 40; sizes `[4, 40]`
give the second copy at offset 32 and total 72. -/
theorem large_argument_placed_at_multiple_of_32 :
    (∀ (ptrs : List Src) (sizes : List Int) (mem : Mem),
      ptrs.length = sizes.length → (∀ s ∈ sizes, 0 ≤ s) →
      get_args_byte_exact sizes ≤ INT_MAX →
      ∃ st : PackState, pack_args ptrs sizes mem = some st ∧
        ∀ (i : Nat) (s : Int), sizes[i]? = some s → 32 ≤ s →
          ∃ c : MemcpyCall, st.copies[i]? = some c ∧ c.ii = i ∧ c.n = s ∧
            c.dst % 32 = 0 ∧
            (get_args_byte (sizes.take i) % 32 = 0 → c.dst = get_args_byte (sizes.take i)) ∧
            (get_args_byte (sizes.take i) % 32 ≠ 0 →
              get_args_byte (sizes.take i) < c.dst ∧
                c.dst < get_args_byte (sizes.take i) + 32)) ∧
    (∀ (p : Src) (mem : Mem),
      (pack_args [p] [40] mem).map (fun st => st.copies) = some [{ dst := 0, ii := 0, n := 40 }]) ∧
    get_args_byte [40] = 40 ∧
    (∀ (p q : Src) (mem : Mem),
      (pack_args [p, q] [4, 40] mem).map (fun st => st.copies)
        = some [{ dst := 0, ii := 0, n := 4 }, { dst := 32, ii := 1, n := 40 }]) ∧
    get_args_byte [4, 40] = 72 := by
  refine ⟨?_, fun _ _ => rfl, by decide, fun _ _ _ => rfl, by decide⟩
  intro ptrs sizes mem hlen hs hfit
  rw [pack_args_eq_exact ptrs sizes mem hs hfit]
  simp only [get_args_byte_take_eq_exact sizes hs hfit]
  obtain ⟨st, h1, _, _, h4⟩ := pack_args_exact_copies ptrs sizes mem hlen
  refine ⟨st, h1, ?_⟩
  intro i s hsi h32
  obtain ⟨hc, _⟩ := h4 i s hsi
  have hin : 0 ≤ get_args_byte_exact (sizes.take i) :=
    (get_args_byte_exact_take_le sizes hs i i (le_refl i)).1
  have ha := placed_aligned (get_args_byte_exact (sizes.take i)) s hin h32
  have hge := placed_ge (get_args_byte_exact (sizes.take i)) s hin (by omega)
  have hlt := placed_lt (get_args_byte_exact (sizes.take i)) s hin (by omega)
  refine ⟨_, hc, rfl, rfl, ha.1, ha.2, ?_⟩
  intro hne
  simp only
  omega

theorem large_argument_placed_at_multiple_of_32_witness :
    (([fun _ => 1, fun _ => 2, fun _ => 3] : List Src).length = [4, 40, 33].length ∧
      (∀ s ∈ ([4, 40, 33] : List Int), 0 ≤ s) ∧
      get_args_byte_exact [4, 40, 33] ≤ INT_MAX) ∧
    ∃ st : PackState,
      pack_args [fun _ => 1, fun _ => 2, fun _ => 3] [4, 40, 33] (fun _ => 0) = some st ∧
        ∀ (i : Nat) (s : Int), ([4, 40, 33] : List Int)[i]? = some s → 32 ≤ s →
          ∃ c : MemcpyCall, st.copies[i]? = some c ∧ c.ii = i ∧ c.n = s ∧
            c.dst % 32 = 0 ∧
            (get_args_byte (([4, 40, 33] : List Int).take i) % 32 = 0 →
              c.dst = get_args_byte (([4, 40, 33] : List Int).take i)) ∧
            (get_args_byte (([4, 40, 33] : List Int).take i) % 32 ≠ 0 →
              get_args_byte (([4, 40, 33] : List Int).take i) < c.dst ∧
                c.dst < get_args_byte (([4, 40, 33] : List Int).take i) + 32) :=
  ⟨⟨by decide, by decide, by decide⟩,
    large_argument_placed_at_multiple_of_32.1 _ _ _ (by decide) (by decide) (by decide)⟩

theorem memcpy_zero (m : Mem) (d : Int) (p : Src) : memcpy m d p 0 = m := by
  funext a
  unfold memcpy to_size_t
  rw [if_neg]
  omega

theorem pack_args_body_zero_mem (st : PackState) (ii : Nat) (p : Src) :
    (pack_args_body st ii p 0).arg_packed = st.arg_packed := by
  unfold pack_args_body
  simp only []
  split_ifs <;> exact memcpy_zero _ _ _

theorem pack_args_loop_append (ps : List Src) (ss : List Int) (ii : Nat) (st : PackState)
    (p : Src) (s : Int) (h : ps.length = ss.length) :
    pack_args_loop (ps ++ [p]) (ss ++ [s]) ii st
      = (pack_args_loop ps ss ii st).map (fun st1 => pack_args_body st1 (ii + ps.length) p s) := by
  induction ps generalizing ss ii st with
  | nil =>
    cases ss with
    | nil => rfl
    | cons s0 ss => simp at h
  | cons p0 ps ih =>
    cases ss with
    | nil => simp at h
    | cons s0 ss =>
      have e : ii + 1 + ps.length = ii + (p0 :: ps).length := by
        simp only [List.length_cons]
        omega
      show pack_args_loop (ps ++ [p]) (ss ++ [s]) (ii + 1) (pack_args_body st ii p0 s0)
        = Option.map (fun st1 => pack_args_body st1 (ii + (p0 :: ps).length) p s)
            (pack_args_loop ps ss (ii + 1) (pack_args_body st ii p0 s0))
      rw [ih ss (ii + 1) _ (by simpa using h), e]

theorem get_args_byte_exact_append_zero (sizes : List Int) (hs : ∀ s ∈ sizes, 0 ≤ s) :
    get_args_byte_exact (sizes ++ [0]) =
      if get_args_byte_exact sizes % 32 = 0 then get_args_byte_exact sizes
      else get_args_byte_exact sizes + (32 - get_args_byte_exact sizes % 32) := by
  have h0 : 0 ≤ get_args_byte_exact sizes := walk_from_ge sizes 0 (le_refl 0) hs
  rw [get_args_byte_exact_eq_walk, walk_from_append, walk_from_cons, walk_from_nil,
    ← get_args_byte_exact_eq_walk, placed_zero _ h0]
  split_ifs <;> omega

/-- The counterexample to C4 as stated: after the sizes `[4]` a zero-size argument
moves the running offset from 4 to 32. -/
theorem zero_size_argument_can_pad :
    (∀ s ∈ ([4] : List Int), 0 ≤ s) ∧ get_args_byte [4] = 4 ∧
      get_args_byte ([4] ++ [0]) = 32 ∧
      ¬ (get_args_byte ([4] ++ [0]) = get_args_byte [4]) := by
  decide

/-- C4, amended: for non-negative sizes whose packed size, the zero-size
argument included, fits in an `int`, a zero-size argument leaves the running
offset unchanged when that offset is a multiple of 32 and otherwise moves it
to the next multiple of 32; and `pack_args` stores no byte for it: the
destination after packing `sizes ++ [0]` is the destination after packing
`sizes`. -/
theorem zero_size_argument_pads (ptrs : List Src) (p : Src) (sizes : List Int) (mem : Mem)
    (hlen : ptrs.length = sizes.length) (hs : ∀ s ∈ sizes, 0 ≤ s)
    (hfit : get_args_byte_exact (sizes ++ [0]) ≤ INT_MAX) :
    get_args_byte (sizes ++ [0]) =
        (if get_args_byte sizes % 32 = 0 then get_args_byte sizes
          else get_args_byte sizes + (32 - get_args_byte sizes % 32)) ∧
    ∃ st st' : PackState, pack_args ptrs sizes mem = some st ∧
      pack_args (ptrs ++ [p]) (sizes ++ [0]) mem = some st' ∧
      st.byte_cnt = get_args_byte sizes ∧
      st'.byte_cnt = get_args_byte (sizes ++ [0]) ∧
      st'.arg_packed = st.arg_packed := by
  have hs' : ∀ s ∈ sizes ++ [0], 0 ≤ s := by
    intro s hmem
    rcases List.mem_append.mp hmem with h | h
    · exact hs s h
    · simp at h
      omega
  have hle : get_args_byte_exact sizes ≤ get_args_byte_exact (sizes ++ [0]) := by
    rw [get_args_byte_exact_eq_walk (sizes ++ [0]), walk_from_append]
    exact walk_from_ge _ _ (walk_from_ge sizes 0 (le_refl 0) hs) (by simp)
  have e1 := get_args_byte_eq_exact (sizes ++ [0]) hs' hfit
  have e2 := get_args_byte_eq_exact sizes hs (le_trans hle hfit)
  refine ⟨by rw [e1, e2]; exact get_args_byte_exact_append_zero sizes hs, ?_⟩
  obtain ⟨st, h1, h2⟩ := pack_args_byte_cnt ptrs sizes mem hlen
  obtain ⟨st', h1', h2'⟩ := pack_args_byte_cnt (ptrs ++ [p])
    (sizes ++ [0]) mem (by simp [hlen])
  refine ⟨st, st', h1, h1', h2, h2', ?_⟩
  have happ := pack_args_loop_append ptrs sizes 0
    { byte_cnt := 0, arg_packed := mem, copies := [] } p 0 hlen
  have h1l : pack_args_loop ptrs sizes 0 { byte_cnt := 0, arg_packed := mem, copies := [] }
      = some st := h1
  have h1l' : pack_args_loop (ptrs ++ [p]) (sizes ++ [0]) 0
      { byte_cnt := 0, arg_packed := mem, copies := [] } = some st' := h1'
  rw [h1l, h1l', Option.map_some', Option.some.injEq] at happ
  rw [happ]
  exact pack_args_body_zero_mem _ _ _

theorem zero_size_argument_pads_witness :
    (([fun _ => 1, fun _ => 2, fun _ => 3] : List Src).length = [4, 40, 3].length ∧
      (∀ s ∈ ([4, 40, 3] : List Int), 0 ≤ s) ∧
      get_args_byte_exact ([4, 40, 3] ++ [0]) ≤ INT_MAX) ∧
    (get_args_byte ([4, 40, 3] ++ [0]) =
        (if get_args_byte [4, 40, 3] % 32 = 0 then get_args_byte [4, 40, 3]
          else get_args_byte [4, 40, 3] + (32 - get_args_byte [4, 40, 3] % 32)) ∧
    ∃ st st' : PackState,
      pack_args [fun _ => 1, fun _ => 2, fun _ => 3] [4, 40, 3] (fun _ => 0) = some st ∧
      pack_args ([fun _ => 1, fun _ => 2, fun _ => 3] ++ [fun _ => 9]) ([4, 40, 3] ++ [0])
        (fun _ => 0) = some st' ∧
      st.byte_cnt = get_args_byte [4, 40, 3] ∧
      st'.byte_cnt = get_args_byte ([4, 40, 3] ++ [0]) ∧
      st'.arg_packed = st.arg_packed) :=
  ⟨⟨by decide, by decide, by decide⟩,
    zero_size_argument_pads _ _ _ _ (by decide) (by decide) (by decide)⟩

/-- A size dividing 32 placed at a multiple of itself needs no padding. -/
theorem placed_of_divisor (s : Int) (hs : s = 1 ∨ s = 2 ∨ s = 4 ∨ s = 8 ∨ s = 16) (j : Nat) :
    placed (j * s) s = j * s := by
  have hj : (0 : Int) ≤ j := Int.ofNat_nonneg j
  rcases hs with rfl | rfl | rfl | rfl | rfl <;>
    (rw [placed_of_nonneg _ _ (by omega) (by omega)]; split_ifs <;> omega)

theorem walk_from_replicate (s : Int) (hs : s = 1 ∨ s = 2 ∨ s = 4 ∨ s = 8 ∨ s = 16)
    (n j : Nat) : walk_from (j * s) (List.replicate n s) = (j + n : Nat) * s := by
  induction n generalizing j with
  | zero => simp [walk_from_nil]
  | succ n ih =>
    rw [List.replicate_succ, walk_from_cons, placed_of_divisor s hs j]
    have e : (j : Int) * s + s = ((j + 1 : Nat) : Int) * s := by push_cast; ring
    rw [e, ih (j + 1)]
    congr 2
    omega

theorem get_args_byte_exact_replicate (s : Int)
    (hs : s = 1 ∨ s = 2 ∨ s = 4 ∨ s = 8 ∨ s = 16) (n : Nat) :
    get_args_byte_exact (List.replicate n s) = n * s := by
  have := walk_from_replicate s hs n 0
  simpa [get_args_byte_exact_eq_walk] using this

theorem get_args_byte_replicate (s : Int) (hs : s = 1 ∨ s = 2 ∨ s = 4 ∨ s = 8 ∨ s = 16)
    (n : Nat) (hfit : (n : Int) * s ≤ INT_MAX) :
    get_args_byte (List.replicate n s) = n * s := by
  have hnn : ∀ x ∈ List.replicate n s, 0 ≤ x := by
    intro x hx
    rw [List.eq_of_mem_replicate hx]
    omega
  rw [get_args_byte_eq_exact _ hnn (by rw [get_args_byte_exact_replicate s hs n]; exact hfit),
    get_args_byte_exact_replicate s hs n]

/-- The running offset after one more argument depends only on the running
offset before it. -/
theorem get_args_byte_append_singleton (l : List Int) (s : Int) :
    get_args_byte (l ++ [s])
      = (get_args_byte_body { byte_cnt := get_args_byte l, naive_add := 0 } s).byte_cnt := by
  unfold get_args_byte
  rw [List.foldl_append, List.foldl_cons, List.foldl_nil]
  unfold get_args_byte_body
  simp only []
  split_ifs <;> rfl

/-- The counterexample to C9 as stated: for `2^27` arguments of size 16 the
running offset overflows and `get_args_byte` returns -2147483648, not
`2^27 * 16 = 2147483648`. -/
theorem uniform_small_arguments_overflow :
    get_args_byte (List.replicate 134217728 16) = -2147483648 ∧
      ¬ (get_args_byte (List.replicate 134217728 16) = (134217728 : Nat) * 16) := by
  have e : List.replicate 134217728 (16 : Int) = List.replicate 134217727 16 ++ [16] :=
    List.replicate_succ' 134217727 16
  have h : get_args_byte (List.replicate 134217728 16) = -2147483648 := by
    rw [e, get_args_byte_append_singleton,
      get_args_byte_replicate 16 (by decide) 134217727 (by decide)]
    decide
  refine ⟨h, ?_⟩
  rw [h]
  decide

/-- C9, amended: for every size `s` among 1, 2, 4, 8, 16 and every `n` with
`n * s` at most `INT_MAX`, packing `n` arguments of size `s` uses no padding:
`get_args_byte` returns `n * s`, and `pack_args` copies argument `i` to offset
`i * s`.  For eight 4-byte arguments the copies go to offsets 0, 4, ..., 28 and
the total is 32. -/
theorem uniform_small_arguments_unpadded :
    (∀ (n : Nat) (s : Int), (s = 1 ∨ s = 2 ∨ s = 4 ∨ s = 8 ∨ s = 16) →
      (n : Int) * s ≤ INT_MAX →
      get_args_byte (List.replicate n s) = n * s ∧
      ∀ (ptrs : List Src) (mem : Mem), ptrs.length = n →
        ∃ st : PackState, pack_args ptrs (List.replicate n s) mem = some st ∧
          st.copies.length = n ∧
          ∀ i : Nat, i < n → st.copies[i]? = some { dst := i * s, ii := i, n := s }) ∧
    (∀ (ptrs : List Src) (mem : Mem), ptrs.length = 8 →
      (pack_args ptrs [4, 4, 4, 4, 4, 4, 4, 4] mem).map
          (fun st => st.copies.map (fun c => c.dst))
        = some [0, 4, 8, 12, 16, 20, 24, 28]) ∧
    get_args_byte [4, 4, 4, 4, 4, 4, 4, 4] = 32 ∧
    get_args_byte [4, 4, 4, 4, 4, 4, 4, 4] ≤ 32 := by
  have main : ∀ (n : Nat) (s : Int), (s = 1 ∨ s = 2 ∨ s = 4 ∨ s = 8 ∨ s = 16) →
      (n : Int) * s ≤ INT_MAX →
      ∀ (ptrs : List Src) (mem : Mem), ptrs.length = n →
        ∃ st : PackState, pack_args ptrs (List.replicate n s) mem = some st ∧
          st.copies.length = n ∧
          ∀ i : Nat, i < n → st.copies[i]? = some { dst := i * s, ii := i, n := s } := by
    intro n s hs hfit ptrs mem hlen
    have hnn : ∀ x ∈ List.replicate n s, 0 ≤ x := by
      intro x hx
      rw [List.eq_of_mem_replicate hx]
      omega
    rw [pack_args_eq_exact ptrs _ mem hnn
      (by rw [get_args_byte_exact_replicate s hs n]; exact hfit)]
    obtain ⟨st, h1, _, h3, h4⟩ := pack_args_exact_copies ptrs (List.replicate n s) mem
      (by simpa using hlen)
    refine ⟨st, h1, by simpa using h3, ?_⟩
    intro i hi
    have hget : (List.replicate n s)[i]? = some s := by
      simp [List.getElem?_replicate, hi]
    obtain ⟨hc, _⟩ := h4 i s hget
    rw [hc, List.take_replicate, min_eq_left (le_of_lt hi),
      get_args_byte_exact_replicate s hs i, placed_of_divisor s hs i]
  refine ⟨fun n s hs hfit => ⟨get_args_byte_replicate s hs n hfit, main n s hs hfit⟩, ?_,
    by decide, by decide⟩
  intro ptrs mem hlen
  obtain ⟨st, h1, h2, h3⟩ := main 8 4 (by decide) (by decide) ptrs mem hlen
  have e : List.replicate 8 (4 : Int) = [4, 4, 4, 4, 4, 4, 4, 4] := rfl
  rw [e] at h1
  rw [h1]
  simp only [Option.map_some', Option.some.injEq]
  apply List.ext_getElem?
  intro i
  by_cases hi : i < 8
  · rw [List.getElem?_map, h3 i hi]
    interval_cases i <;> rfl
  · rw [List.getElem?_eq_none (by simp [h2]; omega), List.getElem?_eq_none (by simp; omega)]

theorem uniform_small_arguments_unpadded_witness :
    (((16 : Int) = 1 ∨ (16 : Int) = 2 ∨ (16 : Int) = 4 ∨ (16 : Int) = 8 ∨ (16 : Int) = 16) ∧
      ((5 : Nat) : Int) * 16 ≤ INT_MAX) ∧
    get_args_byte (List.replicate 5 16) = (5 : Nat) * 16 ∧
    ∀ (ptrs : List Src) (mem : Mem), ptrs.length = 5 →
      ∃ st : PackState, pack_args ptrs (List.replicate 5 16) mem = some st ∧
        st.copies.length = 5 ∧
        ∀ i : Nat, i < 5 → st.copies[i]? = some { dst := i * 16, ii := i, n := 16 } :=
  ⟨⟨by decide, by decide⟩, uniform_small_arguments_unpadded.1 5 16 (by decide) (by decide)⟩

/-! ## Claims about `launch` -/

/-- C8: for every call of `launch` whose argument lists give a size for every
source, `launch` returns and the sequence of calls it makes contains the
driver's `launch_kernel` exactly once when `grid_dim > 0` and not at all when
`grid_dim = 0`; this includes the empty argument list, whose packed size is 0. -/
theorem launch_kernel_called_iff_grid_dim_pos (ctx : Context)
    (try_demangle_name : String → Option String) (heap : Mem) (func : Nat)
    (task_name : String) (arg_pointers : List Src) (arg_sizes : List Int)
    (grid_dim block_dim dynamic_shared_mem_bytes : Nat)
    (hlen : arg_pointers.length ≤ arg_sizes.length) :
    (∃ calls : List Call,
      launch ctx try_demangle_name heap func task_name arg_pointers arg_sizes
        grid_dim block_dim dynamic_shared_mem_bytes = some calls ∧
      calls.countP Call.is_launch_kernel = (if grid_dim > 0 then 1 else 0)) ∧
    (∃ calls : List Call,
      launch ctx try_demangle_name heap func task_name [] []
        grid_dim block_dim dynamic_shared_mem_bytes = some calls ∧
      calls.countP Call.is_launch_kernel = (if grid_dim > 0 then 1 else 0)) ∧
    get_args_byte [] = 0 := by
  have main : ∀ (ps : List Src) (ss : List Int), ps.length ≤ ss.length →
      ∃ calls : List Call,
        launch ctx try_demangle_name heap func task_name ps ss
          grid_dim block_dim dynamic_shared_mem_bytes = some calls ∧
        calls.countP Call.is_launch_kernel = (if grid_dim > 0 then 1 else 0) := by
    intro ps ss h
    obtain ⟨st, hst⟩ := pack_args_loop_some ps ss 0
      { byte_cnt := 0, arg_packed := heap, copies := [] } h
    have hp : pack_args ps ss heap = some st := hst
    unfold launch
    simp only [hp]
    cases hprof : ctx.profiler_ <;> cases hdbg : ctx.debug_ <;>
      by_cases hg : grid_dim > 0 <;>
      simp [hg, Call.is_launch_kernel, List.countP_cons]
  exact ⟨main arg_pointers arg_sizes hlen, main [] [] (le_refl _), rfl⟩

theorem launch_kernel_called_iff_grid_dim_pos_witness :
    (([fun _ => 1, fun _ => 2] : List Src).length ≤ ([4, 40] : List Int).length) ∧
    ((∃ calls : List Call,
      launch { profiler_ := true, debug_ := false } (fun _ => none) (fun _ => 0) 0 "k"
        [fun _ => 1, fun _ => 2] [4, 40] 0 64 0 = some calls ∧
      calls.countP Call.is_launch_kernel = (if 0 > 0 then 1 else 0)) ∧
    (∃ calls : List Call,
      launch { profiler_ := true, debug_ := false } (fun _ => none) (fun _ => 0) 0 "k"
        [] [] 0 64 0 = some calls ∧
      calls.countP Call.is_launch_kernel = (if 0 > 0 then 1 else 0)) ∧
    get_args_byte [] = 0) :=
  ⟨by decide, launch_kernel_called_iff_grid_dim_pos _ _ _ _ _ _ _ _ _ _ (by decide)⟩

/-! ## Claims about the device-property probe -/

/-- The test of the source in the words of the specification: the name is
empty, or its first three characters are not "gfx". -/
theorem invalid_mcpu_iff (name : CString) :
    invalid_mcpu name = true ↔ (name = [] ∨ name.take 3 ≠ lit "gfx") := by
  unfold invalid_mcpu substr
  simp [List.isEmpty_iff]

/-- The two outcomes of the probe, by cases on the source's test and on the
runtime version. -/
theorem AMDGPUContext_eq (o : HipOffsets) (p : List UInt8) (v : Int) :
    AMDGPUContext o p v =
      if invalid_mcpu (read_string p o.HIP_DEVICE_GCN_ARCH_NAME) = true then
        if v < 60000000 then
          Except.error
            "hipGetDevicePropertiesR0000 returned an invalid mcpu_ but HIP version is not ROCm 6"
        else
          Except.ok
            { compute_capability_ :=
                wrap_int (wrap_int (read_int p o.HIP_DEVICE_MAJOR_6 * 100) +
                  wrap_int (read_int p o.HIP_DEVICE_MINOR_6 * 10))
              mcpu_ := substr (read_string p o.HIP_DEVICE_GCN_ARCH_NAME_6) 0
                (find (read_string p o.HIP_DEVICE_GCN_ARCH_NAME_6) (UInt8.ofNat ':'.toNat)) }
      else
        Except.ok
          { compute_capability_ :=
              wrap_int (wrap_int (read_int p o.HIP_DEVICE_MAJOR * 100) +
                wrap_int (read_int p o.HIP_DEVICE_MINOR * 10))
            mcpu_ := substr (read_string p o.HIP_DEVICE_GCN_ARCH_NAME) 0
              (find (read_string p o.HIP_DEVICE_GCN_ARCH_NAME) (UInt8.ofNat ':'.toNat)) } := by
  unfold AMDGPUContext
  by_cases h1 : invalid_mcpu (read_string p o.HIP_DEVICE_GCN_ARCH_NAME) = true
  · by_cases h2 : v < 60000000
    · simp [h1, h2]
      rfl
    · simp [h1, h2]
      rfl
  · simp [h1]
    rfl

/-- C5: the probe raises exactly when the name decoded with the ROCm 5
offsets is invalid (empty, or its first three characters are not "gfx") and
the runtime version is below 60000000; with an invalid ROCm 5 name and a
runtime version of at least 60000000 it returns the ROCm 6 decode (the
compute capability as the `int` arithmetic of the source yields it); with a
valid ROCm 5 name it returns. -/
theorem probe_raises_iff (o : HipOffsets) (hip_device_prop : List UInt8)
    (runtime_version : Int) :
    ((∃ e : String, AMDGPUContext o hip_device_prop runtime_version = Except.error e) ↔
      ((read_string hip_device_prop o.HIP_DEVICE_GCN_ARCH_NAME = [] ∨
          (read_string hip_device_prop o.HIP_DEVICE_GCN_ARCH_NAME).take 3 ≠ lit "gfx") ∧
        runtime_version < 60000000)) ∧
    ((read_string hip_device_prop o.HIP_DEVICE_GCN_ARCH_NAME = [] ∨
        (read_string hip_device_prop o.HIP_DEVICE_GCN_ARCH_NAME).take 3 ≠ lit "gfx") →
      60000000 ≤ runtime_version →
      AMDGPUContext o hip_device_prop runtime_version = Except.ok
        { compute_capability_ :=
            wrap_int (wrap_int (read_int hip_device_prop o.HIP_DEVICE_MAJOR_6 * 100) +
              wrap_int (read_int hip_device_prop o.HIP_DEVICE_MINOR_6 * 10))
          mcpu_ := substr (read_string hip_device_prop o.HIP_DEVICE_GCN_ARCH_NAME_6) 0
            (find (read_string hip_device_prop o.HIP_DEVICE_GCN_ARCH_NAME_6)
              (UInt8.ofNat ':'.toNat)) }) ∧
    (¬ (read_string hip_device_prop o.HIP_DEVICE_GCN_ARCH_NAME = [] ∨
        (read_string hip_device_prop o.HIP_DEVICE_GCN_ARCH_NAME).take 3 ≠ lit "gfx") →
      ∃ r : Probed, AMDGPUContext o hip_device_prop runtime_version = Except.ok r) := by
  rw [AMDGPUContext_eq, ← invalid_mcpu_iff]
  by_cases h1 : invalid_mcpu (read_string hip_device_prop o.HIP_DEVICE_GCN_ARCH_NAME) = true
  · by_cases h2 : runtime_version < 60000000
    · simp [h1, h2]
    · simp [h1, h2]
  · simp [h1]

/-- The counterexample to C6 as stated: on a buffer with the valid ROCm 5 name
"gfx9" and major field 21475293 the product `major * 100` overflows and the
stored compute capability is -2147437996, not `major * 100 + minor * 10`. -/
theorem probe_compute_capability_overflow :
    (read_string sample_prop_wide sample_offsets.HIP_DEVICE_GCN_ARCH_NAME ≠ [] ∧
      (read_string sample_prop_wide sample_offsets.HIP_DEVICE_GCN_ARCH_NAME).take 3
        = lit "gfx") ∧
    AMDGPUContext sample_offsets sample_prop_wide 50000000
      = Except.ok { compute_capability_ := -2147437996, mcpu_ := lit "gfx9" } ∧
    read_int sample_prop_wide sample_offsets.HIP_DEVICE_MAJOR * 100 +
      read_int sample_prop_wide sample_offsets.HIP_DEVICE_MINOR * 10 = 2147529300 ∧
    ¬ ((-2147437996 : Int) =
      read_int sample_prop_wide sample_offsets.HIP_DEVICE_MAJOR * 100 +
        read_int sample_prop_wide sample_offsets.HIP_DEVICE_MINOR * 10) :=
  ⟨by decide, rfl, by decide, by decide⟩

/-- The `int` arithmetic of the compute capability is exact when the two
products and their sum fit in an `int`. -/
theorem compute_capability_of_range (major minor : Int)
    (h1 : INT_MIN ≤ major * 100 ∧ major * 100 ≤ INT_MAX)
    (h2 : INT_MIN ≤ minor * 10 ∧ minor * 10 ≤ INT_MAX)
    (h3 : INT_MIN ≤ major * 100 + minor * 10 ∧ major * 100 + minor * 10 ≤ INT_MAX) :
    wrap_int (wrap_int (major * 100) + wrap_int (minor * 10)) = major * 100 + minor * 10 := by
  rw [wrap_int_of_range _ h1.1 h1.2, wrap_int_of_range _ h2.1 h2.2,
    wrap_int_of_range _ h3.1 h3.2]

/-- C6, amended: when the probe returns, the stored values come from the
ROCm 5 offsets if the ROCm 5 name is valid (non-empty and beginning with
"gfx"), whatever the runtime version, and from the ROCm 6 offsets otherwise:
the architecture string is the decoded name cut at its first ':', and the
compute capability is `major * 100 + minor * 10` computed in 32-bit `int`,
which is `major * 100 + minor * 10` whenever the two products and their sum
fit in an `int`. -/
theorem probe_stores_selected_layout (o : HipOffsets) (hip_device_prop : List UInt8)
    (runtime_version : Int) (r : Probed)
    (h : AMDGPUContext o hip_device_prop runtime_version = Except.ok r) :
    ((read_string hip_device_prop o.HIP_DEVICE_GCN_ARCH_NAME ≠ [] ∧
        (read_string hip_device_prop o.HIP_DEVICE_GCN_ARCH_NAME).take 3 = lit "gfx") →
      r.compute_capability_ =
          wrap_int (wrap_int (read_int hip_device_prop o.HIP_DEVICE_MAJOR * 100) +
            wrap_int (read_int hip_device_prop o.HIP_DEVICE_MINOR * 10)) ∧
        ((INT_MIN ≤ read_int hip_device_prop o.HIP_DEVICE_MAJOR * 100 ∧
            read_int hip_device_prop o.HIP_DEVICE_MAJOR * 100 ≤ INT_MAX) →
          (INT_MIN ≤ read_int hip_device_prop o.HIP_DEVICE_MINOR * 10 ∧
            read_int hip_device_prop o.HIP_DEVICE_MINOR * 10 ≤ INT_MAX) →
          (INT_MIN ≤ read_int hip_device_prop o.HIP_DEVICE_MAJOR * 100 +
              read_int hip_device_prop o.HIP_DEVICE_MINOR * 10 ∧
            read_int hip_device_prop o.HIP_DEVICE_MAJOR * 100 +
              read_int hip_device_prop o.HIP_DEVICE_MINOR * 10 ≤ INT_MAX) →
          r.compute_capability_ =
            read_int hip_device_prop o.HIP_DEVICE_MAJOR * 100 +
              read_int hip_device_prop o.HIP_DEVICE_MINOR * 10) ∧
        r.mcpu_ = substr (read_string hip_device_prop o.HIP_DEVICE_GCN_ARCH_NAME) 0
          (find (read_string hip_device_prop o.HIP_DEVICE_GCN_ARCH_NAME)
            (UInt8.ofNat ':'.toNat))) ∧
    (¬ (read_string hip_device_prop o.HIP_DEVICE_GCN_ARCH_NAME ≠ [] ∧
        (read_string hip_device_prop o.HIP_DEVICE_GCN_ARCH_NAME).take 3 = lit "gfx") →
      r.compute_capability_ =
          wrap_int (wrap_int (read_int hip_device_prop o.HIP_DEVICE_MAJOR_6 * 100) +
            wrap_int (read_int hip_device_prop o.HIP_DEVICE_MINOR_6 * 10)) ∧
        ((INT_MIN ≤ read_int hip_device_prop o.HIP_DEVICE_MAJOR_6 * 100 ∧
            read_int hip_device_prop o.HIP_DEVICE_MAJOR_6 * 100 ≤ INT_MAX) →
          (INT_MIN ≤ read_int hip_device_prop o.HIP_DEVICE_MINOR_6 * 10 ∧
            read_int hip_device_prop o.HIP_DEVICE_MINOR_6 * 10 ≤ INT_MAX) →
          (INT_MIN ≤ read_int hip_device_prop o.HIP_DEVICE_MAJOR_6 * 100 +
              read_int hip_device_prop o.HIP_DEVICE_MINOR_6 * 10 ∧
            read_int hip_device_prop o.HIP_DEVICE_MAJOR_6 * 100 +
              read_int hip_device_prop o.HIP_DEVICE_MINOR_6 * 10 ≤ INT_MAX) →
          r.compute_capability_ =
            read_int hip_device_prop o.HIP_DEVICE_MAJOR_6 * 100 +
              read_int hip_device_prop o.HIP_DEVICE_MINOR_6 * 10) ∧
        r.mcpu_ = substr (read_string hip_device_prop o.HIP_DEVICE_GCN_ARCH_NAME_6) 0
          (find (read_string hip_device_prop o.HIP_DEVICE_GCN_ARCH_NAME_6)
            (UInt8.ofNat ':'.toNat))) := by
  have hv : (read_string hip_device_prop o.HIP_DEVICE_GCN_ARCH_NAME ≠ [] ∧
      (read_string hip_device_prop o.HIP_DEVICE_GCN_ARCH_NAME).take 3 = lit "gfx") ↔
      ¬ (invalid_mcpu (read_string hip_device_prop o.HIP_DEVICE_GCN_ARCH_NAME) = true) := by
    rw [invalid_mcpu_iff]
    tauto
  rw [hv]
  rw [AMDGPUContext_eq] at h
  by_cases h1 : invalid_mcpu (read_string hip_device_prop o.HIP_DEVICE_GCN_ARCH_NAME) = true
  · by_cases h2 : runtime_version < 60000000
    · simp [h1, h2] at h
    · rw [if_pos h1, if_neg h2] at h
      have e := Except.ok.inj h
      subst e
      refine ⟨fun hn => absurd h1 hn, fun _ => ⟨rfl, ?_, rfl⟩⟩
      exact compute_capability_of_range _ _
  · rw [if_neg h1] at h
    have e := Except.ok.inj h
    subst e
    refine ⟨fun _ => ⟨rfl, ?_, rfl⟩, fun hn => absurd h1 hn⟩
    exact compute_capability_of_range _ _

theorem probe_stores_selected_layout_witness :
    AMDGPUContext sample_offsets sample_prop_6 60000000
        = Except.ok { compute_capability_ := 1030, mcpu_ := lit "gfx1030" } ∧
      ¬ (read_string sample_prop_6 sample_offsets.HIP_DEVICE_GCN_ARCH_NAME ≠ [] ∧
        (read_string sample_prop_6 sample_offsets.HIP_DEVICE_GCN_ARCH_NAME).take 3 = lit "gfx") ∧
      (1030 : Int) =
        read_int sample_prop_6 sample_offsets.HIP_DEVICE_MAJOR_6 * 100 +
          read_int sample_prop_6 sample_offsets.HIP_DEVICE_MINOR_6 * 10 ∧
      lit "gfx1030" =
        substr (read_string sample_prop_6 sample_offsets.HIP_DEVICE_GCN_ARCH_NAME_6) 0
          (find (read_string sample_prop_6 sample_offsets.HIP_DEVICE_GCN_ARCH_NAME_6)
            (UInt8.ofNat ':'.toNat)) :=
  have w := (probe_stores_selected_layout sample_offsets sample_prop_6 60000000
    { compute_capability_ := 1030, mcpu_ := lit "gfx1030" } rfl).2 (by decide)
  ⟨rfl, by decide, w.2.1 (by decide) (by decide) (by decide), w.2.2⟩

theorem take_indexOf_eq_takeWhile (c : UInt8) (l : CString) :
    l.take (l.indexOf c) = l.takeWhile (fun x => x != c) := by
  induction l with
  | nil => simp
  | cons x xs ih =>
    by_cases h : x = c
    · subst h
      simp
    · simp [List.indexOf_cons, h, ih]

/-- Cutting a name at `find` of a character keeps the part before the first
occurrence of the character, and the whole name when there is none. -/
theorem substr_find (name : CString) (c : UInt8) (hlen : name.length ≤ npos) :
    substr name 0 (find name c) = name.takeWhile (fun x => x != c) ∧
      c ∉ substr name 0 (find name c) ∧
      (c ∉ name → substr name 0 (find name c) = name) := by
  have key : substr name 0 (find name c) = name.takeWhile (fun x => x != c) := by
    unfold substr find
    rw [List.drop_zero]
    split_ifs with h
    · exact take_indexOf_eq_takeWhile c name
    · rw [List.take_of_length_le hlen, ← take_indexOf_eq_takeWhile c name]
      have : name.length ≤ name.indexOf c := Nat.le_of_not_lt h
      rw [List.take_of_length_le this]
  refine ⟨key, ?_, ?_⟩
  · rw [key]
    intro hmem
    have := List.mem_takeWhile_imp hmem
    simp at this
  · intro hc
    rw [key, List.takeWhile_eq_self_iff]
    intro x hx
    have : x ≠ c := fun e => hc (e ▸ hx)
    simpa using this

theorem read_string_length_le (p : List UInt8) (idx : Nat) :
    (read_string p idx).length ≤ p.length := by
  unfold read_string
  exact le_trans (List.takeWhile_sublist _).length_le (by simp)

/-- C7: when the probe returns on a buffer whose size is a `size_t`, the stored
architecture string is the decoded name (the ROCm 5 name when valid, else the
ROCm 6 name) up to its first ':', the whole name when it has none, and it
contains no ':'.  A decoded name "gfx90a:xnack-" is stored as "gfx90a". -/
theorem probe_stores_name_before_colon :
    (∀ (o : HipOffsets) (hip_device_prop : List UInt8) (runtime_version : Int) (r : Probed),
      AMDGPUContext o hip_device_prop runtime_version = Except.ok r →
      hip_device_prop.length ≤ npos →
      ∃ name : CString,
        name = (if invalid_mcpu (read_string hip_device_prop o.HIP_DEVICE_GCN_ARCH_NAME) = true
          then read_string hip_device_prop o.HIP_DEVICE_GCN_ARCH_NAME_6
          else read_string hip_device_prop o.HIP_DEVICE_GCN_ARCH_NAME) ∧
        r.mcpu_ = name.takeWhile (fun c => c != UInt8.ofNat ':'.toNat) ∧
        UInt8.ofNat ':'.toNat ∉ r.mcpu_ ∧
        (UInt8.ofNat ':'.toNat ∉ name → r.mcpu_ = name)) ∧
    (∀ (o : HipOffsets) (hip_device_prop : List UInt8) (runtime_version : Int),
      read_string hip_device_prop o.HIP_DEVICE_GCN_ARCH_NAME = lit "gfx90a:xnack-" →
      ∃ r : Probed, AMDGPUContext o hip_device_prop runtime_version = Except.ok r ∧
        r.mcpu_ = lit "gfx90a") := by
  constructor
  · intro o p v r h hlen
    rw [AMDGPUContext_eq] at h
    by_cases h1 : invalid_mcpu (read_string p o.HIP_DEVICE_GCN_ARCH_NAME) = true
    · by_cases h2 : v < 60000000
      · simp [h1, h2] at h
      · rw [if_pos h1, if_neg h2] at h
        have e := Except.ok.inj h
        subst e
        refine ⟨_, rfl, ?_⟩
        rw [if_pos h1]
        exact substr_find _ _ (le_trans (read_string_length_le _ _) hlen)
    · rw [if_neg h1] at h
      have e := Except.ok.inj h
      subst e
      refine ⟨_, rfl, ?_⟩
      rw [if_neg h1]
      exact substr_find _ _ (le_trans (read_string_length_le _ _) hlen)
  · intro o p v hname
    have h1 : ¬ (invalid_mcpu (read_string p o.HIP_DEVICE_GCN_ARCH_NAME) = true) := by
      rw [hname]
      decide
    rw [AMDGPUContext_eq, if_neg h1, hname]
    refine ⟨_, rfl, ?_⟩
    show substr (lit "gfx90a:xnack-") 0 (find (lit "gfx90a:xnack-") (UInt8.ofNat ':'.toNat))
      = lit "gfx90a"
    decide

theorem probe_raises_iff_witness :
    ((read_string sample_prop_6 sample_offsets.HIP_DEVICE_GCN_ARCH_NAME = [] ∨
        (read_string sample_prop_6 sample_offsets.HIP_DEVICE_GCN_ARCH_NAME).take 3 ≠ lit "gfx") ∧
      (50000000 : Int) < 60000000) ∧
    ∃ e : String, AMDGPUContext sample_offsets sample_prop_6 50000000 = Except.error e :=
  ⟨⟨by decide, by decide⟩,
    (probe_raises_iff sample_offsets sample_prop_6 50000000).1.2 ⟨by decide, by decide⟩⟩

theorem probe_stores_name_before_colon_witness :
    (AMDGPUContext sample_offsets sample_prop_5 50000000
        = Except.ok { compute_capability_ := 900, mcpu_ := lit "gfx90a" } ∧
      sample_prop_5.length ≤ npos) ∧
    ∃ name : CString,
      name = (if invalid_mcpu
            (read_string sample_prop_5 sample_offsets.HIP_DEVICE_GCN_ARCH_NAME) = true
          then read_string sample_prop_5 sample_offsets.HIP_DEVICE_GCN_ARCH_NAME_6
          else read_string sample_prop_5 sample_offsets.HIP_DEVICE_GCN_ARCH_NAME) ∧
        lit "gfx90a" = name.takeWhile (fun c => c != UInt8.ofNat ':'.toNat) ∧
        UInt8.ofNat ':'.toNat ∉ lit "gfx90a" ∧
        (UInt8.ofNat ':'.toNat ∉ name → lit "gfx90a" = name) :=
  ⟨⟨rfl, by decide⟩,
    probe_stores_name_before_colon.1 sample_offsets sample_prop_5 50000000
      { compute_capability_ := 900, mcpu_ := lit "gfx90a" } rfl (by decide)⟩

end taichi.lang.AMDGPUContext
